import Mathlib

/-!
Verification of the file-event reducer from `src/filevents.cpp`.

The C++ program ingests primitive file-system events (create/delete of files
and folders) and reduces them to higher-level events (modify, move, copy,
collapsed folder deletes, folder moves).  This file gives a shallow embedding
of the reducer: paths are lists of string segments, the timestamp-ordered
`std::multiset` event store is a sorted list with stable (upper-bound)
insertion, the `std::multimap` hash index is a sorted association list, and
the `std::map` subtree snapshots are sorted association lists.
-/

set_option maxRecDepth 4000

/-- `SEP` constant: the path separator string. -/
def SEP : String := "/"

/-- `NULL_HASH` constant: the sentinel hash marking folder events. -/
def NULL_HASH : String := "-"

/-- `t_path`: a path is an ordered list of string segments (C++ `std::list<std::string>`). -/
abbrev t_path := List String

/-- `t_hash`: a content hash (C++ `std::string`). -/
abbrev t_hash := String

/-- `t_tree`: maps a sub-path to a hash value (C++ `std::map<std::string, t_hash>`),
modeled as an association list kept sorted by key; `tree_insert` maintains order. -/
abbrev t_tree := List (String × t_hash)

/-- `t_event_type` enum of `filevents.cpp`. -/
inductive EventType where
  | e_new
  | e_delete
  | e_modify
  | e_move
  | e_copy
deriving DecidableEq, Repr

/-- `t_file_type` enum of `filevents.cpp`. -/
inductive FileType where
  | e_file
  | e_folder
deriving DecidableEq, Repr

/-- Iterator utility `inc`: advances an iterator (modeled as a list index) by one. -/
def inc (i : Nat) : Nat := i + 1

/-- Iterator utility `dec`: moves an iterator (modeled as a list index) back by one. -/
def dec (i : Nat) : Nat := i - 1

/-- The event hierarchy of `filevents.cpp` (`t_event_new`, `t_event_delete`,
`t_event_modify`, `t_event_move`, `t_event_copy`), as a sum type.  Every
variant carries the base-class fields `file_type` and `timestamp`; the
`event_type` tag is determined by the variant.  `t_event_delete` additionally
carries its `subtree` map (empty at construction, filled by folder-delete
collapsing). -/
inductive Event where
  | e_new (file_type : FileType) (timestamp : Int) (path : t_path) (hash : t_hash)
  | e_delete (file_type : FileType) (timestamp : Int) (path : t_path) (hash : t_hash)
      (subtree : t_tree)
  | e_modify (file_type : FileType) (timestamp : Int) (path : t_path)
      (old_hash : t_hash) (new_hash : t_hash)
  | e_move (file_type : FileType) (timestamp : Int) (old_path : t_path) (new_path : t_path)
  | e_copy (file_type : FileType) (timestamp : Int) (src_path : t_path) (dest_path : t_path)
deriving DecidableEq, Repr

/-- The `file_type` field of the `t_event` base class. -/
def Event.file_type : Event → FileType
  | .e_new f _ _ _ => f
  | .e_delete f _ _ _ _ => f
  | .e_modify f _ _ _ _ => f
  | .e_move f _ _ _ => f
  | .e_copy f _ _ _ => f

/-- The `event_type` field of the `t_event` base class (determined by the variant). -/
def Event.event_type : Event → EventType
  | .e_new _ _ _ _ => .e_new
  | .e_delete _ _ _ _ _ => .e_delete
  | .e_modify _ _ _ _ _ => .e_modify
  | .e_move _ _ _ _ => .e_move
  | .e_copy _ _ _ _ => .e_copy

/-- The `timestamp` field of the `t_event` base class. -/
def Event.timestamp : Event → Int
  | .e_new _ t _ _ => t
  | .e_delete _ t _ _ _ => t
  | .e_modify _ t _ _ _ => t
  | .e_move _ t _ _ => t
  | .e_copy _ t _ _ => t

/-!  ## Path manipulation utilities  -/

/-- `get_name`: returns the tail of the path (`return *path.rbegin();`).
The C++ performs NO emptiness check: on an empty path it dereferences the
reverse-begin (= reverse-end) iterator, an unchecked read with no defined
result that may silently yield a value rather than aborting.  The embedding
keeps the function total over `String`, standing for the head of the
reversed list, with the empty-path read producing an unspecified default
value (the empty string) — a silently returned value, never a failure. -/
def get_name (path : t_path) : String :=
  path.reverse.headD ""

/-- `get_parent`: returns everything but the tail of the path.  The C++
asserts `!path.empty()` and aborts on an empty path; the embedding returns
`none` in that case. -/
def get_parent (path : t_path) : Option t_path :=
  if path.isEmpty then none else some path.dropLast

/-- `path_to_string` on an iterator range: concatenates the segments,
interposing `SEP` after every segment that is not itself `SEP` and is not
the last one. -/
def path_to_string : t_path → String
  | [] => ""
  | [s] => s
  | s :: rest => (if s = SEP then s else s ++ SEP) ++ path_to_string rest

/-- Helper for `make_path`: walks the raw characters accumulating the current
segment (in reverse).  A separator found at the start of a segment pushes the
root segment `SEP`; otherwise the accumulated segment is pushed.  At the end
of the input the accumulated segment is pushed verbatim (this mirrors the
C++ `find`-loop, whose final chunk is pushed even when empty). -/
def make_path_aux : List Char → List Char → t_path
  | [], acc => [String.mk acc.reverse]
  | c :: rest, acc =>
    if c = '/' then
      if acc.isEmpty then SEP :: make_path_aux rest []
      else String.mk acc.reverse :: make_path_aux rest []
    else make_path_aux rest (c :: acc)

/-- `make_path`: converts a raw string into a path object by splitting on the
separator; an empty chunk before a separator denotes the root segment. -/
def make_path (raw_path : String) : t_path :=
  make_path_aux raw_path.data []

/-- Character-list core of `str_lt`. -/
def str_lt_go : List Char → List Char → Bool
  | _, [] => false
  | [], _ :: _ => true
  | c :: cs, d :: ds =>
    if c.toNat < d.toNat then true
    else if d.toNat < c.toNat then false
    else str_lt_go cs ds

/-- Lexicographic character-wise comparison of two strings, the ordering of
C++ `std::string::operator<` used by `std::map` and `std::multimap` keys. -/
def str_lt (a b : String) : Bool := str_lt_go a.data b.data

/-!  ## Tree (subtree snapshot) utilities  -/

/-- `std::map::insert` on a subtree: inserts in key order and keeps the
existing entry when the key is already present. -/
def tree_insert : t_tree → String × t_hash → t_tree
  | [], p => [p]
  | (k, v) :: rest, (k9, v9) =>
    if str_lt k9 k then (k9, v9) :: (k, v) :: rest
    else if k9 = k then (k, v) :: rest
    else (k, v) :: tree_insert rest (k9, v9)

/-!  ## Hash index utilities  -/

/-- `t_hash_index`: `std::multimap<t_hash, t_path>`, modeled as an association
list sorted by hash, with stable insertion at the upper bound of equal keys. -/
abbrev t_hash_index := List (t_hash × t_path)

/-- `std::multimap::insert`: inserts at the upper bound of the key, i.e. after
all entries whose key is less than or equal to the inserted key. -/
def index_insert : t_hash_index → t_hash → t_path → t_hash_index
  | [], h, p => [(h, p)]
  | (h0, p0) :: rest, h, p =>
    if str_lt h h0 then (h, p) :: (h0, p0) :: rest
    else (h0, p0) :: index_insert rest h p

/-- `remove_from_index`: walks the equal range of `key` and erases the first
entry whose value equals `value` (the C++ `break`s after the first erase).
Walking the whole list is equivalent since matching entries only occur in the
equal range. -/
def remove_from_index : t_hash_index → t_hash → t_path → t_hash_index
  | [], _, _ => []
  | (h0, p0) :: rest, key, value =>
    if h0 = key ∧ p0 = value then rest
    else (h0, p0) :: remove_from_index rest key value

/-!  ## Event store -/

/-- `t_event_list`: `std::multiset<p_event, t_event_set_comp>` ordered by
timestamp, modeled as a timestamp-sorted list.  `insert_event` inserts at the
upper bound (after all entries with a less-or-equal timestamp, the stable
tie-break) and also returns the position of the inserted element, which the
C++ obtains as the returned iterator. -/
def insert_event : List Event → Event → List Event × Nat
  | [], ev => ([ev], 0)
  | e :: rest, ev =>
    if ev.timestamp < e.timestamp then (ev :: e :: rest, 0)
    else
      let r := insert_event rest ev
      (e :: r.1, r.2 + 1)

/-- `t_algo_state`: the event store and the copy-detection hash index.  (The
C++ also declares a `tree_index` member for folder-copy detection, but no code
ever reads or writes it, so it is omitted.) -/
structure t_algo_state where
  events : List Event
  hash_index : t_hash_index
deriving DecidableEq, Repr

/-!  ## File simplifications (file-level reducer)  -/

/-- `simplify_to_move_event`: reduces a stored `DEL` event followed by an
incoming `ADD` event to a `MOVE` event when the hash is the same.  The
call site passes the most recently stored event (`dec(events.end())`) as
`prev_ev_it`; removing it and inserting the move at the upper bound of its
timestamp is order-equivalent to insert-then-erase in the multiset. -/
def simplify_to_move_event (state : t_algo_state) (ev : Event) : Option t_algo_state :=
  match state.events.getLast? with
  | none => none
  | some prev_ev =>
    if prev_ev.file_type = FileType.e_file ∧ ev.event_type = EventType.e_new then
      match prev_ev, ev with
      | Event.e_delete _ _ prev_path prev_hash _, Event.e_new _ ts new_path new_hash =>
        if prev_hash = new_hash then
          some { state with
            events := (insert_event state.events.dropLast
              (Event.e_move FileType.e_file ts prev_path new_path)).1 }
        else none
      | _, _ => none
    else none

/-- `simplify_to_modify_event`: reduces a stored `DEL` event followed by an
incoming `ADD` event at the exact same path to a `MODIFY` event. -/
def simplify_to_modify_event (state : t_algo_state) (ev : Event) : Option t_algo_state :=
  match state.events.getLast? with
  | none => none
  | some prev_ev =>
    if prev_ev.file_type = FileType.e_file ∧ ev.event_type = EventType.e_new then
      match prev_ev, ev with
      | Event.e_delete _ _ prev_path prev_hash _, Event.e_new _ ts new_path new_hash =>
        if prev_path = new_path then
          some { state with
            events := (insert_event state.events.dropLast
              (Event.e_modify FileType.e_file ts new_path prev_hash new_hash)).1 }
        else none
      | _, _ => none
    else none

/-- `simplify_to_copy_event`: replaces an incoming `ADD` event by a `COPY`
event when the file's hash is in the index; the source of the copy is the
first entry of the index's equal range for that hash. -/
def simplify_to_copy_event (state : t_algo_state) (ev : Event) : Option t_algo_state :=
  match ev with
  | Event.e_new _ ts path hsh =>
    match state.hash_index.find? (fun e => e.1 == hsh) with
    | some mtch =>
      some { state with
        events := (insert_event state.events (Event.e_copy FileType.e_file ts mtch.2 path)).1 }
    | none => none
  | _ => none

/-- The trailing hash-index update of `add_to_state`: performed from the raw
incoming event, whatever happened before — a raw file `ADD` inserts its
`(hash, path)` pair, a raw file `DEL` removes it. -/
def update_index (idx : t_hash_index) (ev : Event) : t_hash_index :=
  if ev.file_type = FileType.e_file then
    match ev with
    | Event.e_new _ _ path hsh => index_insert idx hsh path
    | Event.e_delete _ _ path hsh _ => remove_from_index idx hsh path
    | _ => idx
  else idx

/-- `add_to_state`: adds one raw event to the event list, attempting to
simplify it to a higher-order event.  Folder events are inserted verbatim
(they are reduced later by `simplify_state`).  For file events, modify fusion
is attempted first against the most recently stored event, then move fusion,
then copy detection, and otherwise the event is inserted as is; finally the
hash index is updated from the raw incoming event. -/
def add_to_state (state : t_algo_state) (ev : Event) : t_algo_state :=
  if ev.file_type = FileType.e_folder then
    { state with events := (insert_event state.events ev).1 }
  else
    let state1 :=
      match simplify_to_modify_event state ev with
      | some s => s
      | none =>
        match simplify_to_move_event state ev with
        | some s => s
        | none =>
          match simplify_to_copy_event state ev with
          | some s => s
          | none => { state with events := (insert_event state.events ev).1 }
    { state1 with hash_index := update_index state1.hash_index ev }

/-!  ## Raw input events (`read_events`)  -/

/-- The raw operation keyword of one input line (`ADD` or `DEL`). -/
inductive RawOp where
  | add
  | del
deriving DecidableEq, Repr

/-- One primitive input event as read by `read_events`: operation, timestamp,
path and content hash (the sentinel `NULL_HASH` marks a folder). -/
structure RawEvent where
  op : RawOp
  ts : Int
  path : t_path
  hash : t_hash
deriving DecidableEq, Repr

/-- `read_events` derives the file type from the hash: the sentinel hash
denotes a folder. -/
def raw_file_type (h : t_hash) : FileType :=
  if h = NULL_HASH then FileType.e_folder else FileType.e_file

/-- The event object `read_events` constructs for one input line. -/
def raw_to_event (r : RawEvent) : Event :=
  match r.op with
  | RawOp.add => Event.e_new (raw_file_type r.hash) r.ts r.path r.hash
  | RawOp.del => Event.e_delete (raw_file_type r.hash) r.ts r.path r.hash []

/-- Ingestion of a whole primitive stream: `read_events` feeds each event to
`add_to_state` in order, starting from the empty state. -/
def ingest_raw (rs : List RawEvent) : t_algo_state :=
  rs.foldl (fun st r => add_to_state st (raw_to_event r)) ⟨[], []⟩

/-!  ## Folder simplifications (folder-level reducer)  -/

/-- Key under which a transferred subtree entry of a collapsed child delete is
re-inserted into the parent delete's subtree: the child's name, a separator
unless the entry's key already starts with one, then the entry's key. -/
def child_key (prev_name : String) (k : String) : String :=
  if k.data.head? = some '/' then prev_name ++ k else prev_name ++ SEP ++ k

/-- `simplify_folder_delete`: collapses a redundant `DEL` event into the
immediately following folder `DEL` event when the former's path is a direct
child of the latter's.  The child's name (with its hash or sentinel) is
inserted into the folder's subtree, the child's own subtree entries are
transferred with the child's name as a key prefix, and the child event is
removed from the store.  `i` is the index of the current (folder) event; the
predecessor sits at `i - 1`. -/
def simplify_folder_delete (es : List Event) (i : Nat) : Option (List Event) :=
  match es[i-1]?, es[i]? with
  | some prev_ev, some cur_ev =>
    if prev_ev.event_type ≠ EventType.e_delete ∨ cur_ev.event_type ≠ EventType.e_delete then
      none
    else if cur_ev.file_type ≠ FileType.e_folder then none
    else
      match prev_ev, cur_ev with
      | Event.e_delete _ _ prev_path prev_hash prev_subtree,
        Event.e_delete cf ct cur_path cur_hash cur_subtree =>
        match get_parent prev_path with
        | some par =>
          if cur_path = par then
            let prev_name := get_name prev_path
            let sub1 := tree_insert cur_subtree (prev_name, prev_hash)
            let sub2 := prev_subtree.foldl
              (fun acc kv => tree_insert acc (child_key prev_name kv.1, kv.2)) sub1
            some (es.take (i-1) ++ Event.e_delete cf ct cur_path cur_hash sub2 :: es.drop (i+1))
          else none
        | none => none
      | _, _ => none
  | _, _ => none

/-- Scanning helper of `find_add_bounds`: starting right after the base `ADD`
event, extends the run while events are `ADD`s whose paths are proper
descendants of the base path, collecting `(relative sub-path, hash)` entries.
Returns the index one past the run together with the built subtree. -/
def find_add_bounds_go (base_path : t_path) : List Event → Nat → t_tree → Nat × t_tree
  | [], j, acc => (j, acc)
  | e :: rest, j, acc =>
    match e with
    | Event.e_new _ _ p h =>
      if p.length ≤ base_path.length then (j, acc)
      else if p.take base_path.length = base_path then
        find_add_bounds_go base_path rest (j + 1)
          (tree_insert acc (path_to_string (p.drop base_path.length), h))
      else (j, acc)
    | _ => (j, acc)

/-- `find_add_bounds`: finds the consecutive series of `ADD` events starting
at index `i` that all lie within the base folder given by the first `ADD`'s
path, and builds the corresponding subtree map. -/
def find_add_bounds (es : List Event) (i : Nat) : Nat × t_tree :=
  match es[i]? with
  | some (Event.e_new _ _ base_path _) => find_add_bounds_go base_path (es.drop (i+1)) (i+1) []
  | _ => (i, [])

/-- `simplify_to_folder_move`: reduces a `DEL` event at `i - 1` and the range
of `ADD` events starting at `i` to a single folder `MOVE` event when the
subtree built from the `ADD` run is exactly equal to the delete's subtree.
Returns the store and the new position of the current iterator.
Note: the C++ guard on the deleted object being a folder is inoperative —
`if ((*prev_it)->file_type != e_folder && (*prev_it)->file_type != e_folder) cur_it;`
tests `prev_it` twice and its body is an effect-free expression statement
(the `return` is missing), so file deletes fall through to the matching. -/
def simplify_to_folder_move (es : List Event) (i : Nat) : List Event × Nat :=
  match es[i-1]?, es[i]? with
  | some prev_ev, some cur_ev =>
    if prev_ev.event_type ≠ EventType.e_delete ∨ cur_ev.event_type ≠ EventType.e_new then
      (es, i)
    else
      match prev_ev, cur_ev with
      | Event.e_delete _ _ prev_path _ prev_subtree, Event.e_new _ cts cur_path _ =>
        let bounds_result := find_add_bounds es i
        if bounds_result.1 = i then (es, i)
        else if bounds_result.2.length ≠ prev_subtree.length then (es, i)
        else if bounds_result.2 ≠ prev_subtree then (es, i)
        else
          insert_event (es.take (i-1) ++ es.drop bounds_result.1)
            (Event.e_move FileType.e_folder cts prev_path cur_path)
      | _, _ => (es, i)
  | _, _ => (es, i)

/-- The inner `while (simplify_folder_delete(...))` loop of `simplify_state`:
keeps collapsing the predecessor into the current folder delete; each firing
removes the predecessor, shifting the current iterator's index down by one,
and the loop breaks when the current event reaches the beginning of the
store. -/
def collapse_loop : List Event → Nat → List Event × Nat
  | es, 0 => (es, 0)
  | es, i + 1 =>
    match simplify_folder_delete es (i + 1) with
    | some es1 => if i = 0 then (es1, 0) else collapse_loop es1 i
    | none => (es, i + 1)

/-- One iteration of the scan loop of `simplify_state`, at current index `i`
(with the previous iterator at `i - 1`): run the collapse loop; if the
current event reached the beginning, continue; otherwise attempt the folder
move; in every case the `for` increment then advances the current iterator by
one.  Returns the store and the next current index. -/
def scan_step (es : List Event) (i : Nat) : List Event × Nat :=
  let c := collapse_loop es i
  if c.2 = 0 then (c.1, inc c.2)
  else
    let m := simplify_to_folder_move c.1 c.2
    (m.1, inc m.2)

/-- The scan loop of `simplify_state`, driven by fuel: iterate `scan_step`
while the current iterator has not reached the end of the store.  Every step
either strictly shortens the store or leaves it unchanged and advances the
index, so `(n+1) * (n+1)` steps always suffice for a store of `n` events and
the fuel never runs out when `simplify_state` supplies it. -/
def simplify_loop : Nat → List Event → Nat → List Event
  | 0, es, _ => es
  | fuel + 1, es, i =>
    if i < es.length then
      let s := scan_step es i
      simplify_loop fuel s.1 s.2
    else es

/-- `simplify_state`: the folder-level pass.  The previous iterator starts at
the beginning of the store and the current iterator at `inc` of it, and the
scan runs until the current iterator reaches the end. -/
def simplify_state (state : t_algo_state) : t_algo_state :=
  { state with
    events := simplify_loop ((state.events.length + 1) * (state.events.length + 1))
      state.events (inc 0) }

/-!  ## Concrete runs from the spec's testable properties  -/

/-- The input run of the folder-move end-to-end property: delete the subtree
of `/f` bottom-up, then create `/g/h` and its contents. -/
def c1_input : List RawEvent :=
  [⟨RawOp.del, 1, make_path "/f/b/c.t", "H1"⟩,
   ⟨RawOp.del, 2, make_path "/f/b", NULL_HASH⟩,
   ⟨RawOp.del, 3, make_path "/f/d.t", "H2"⟩,
   ⟨RawOp.del, 4, make_path "/f", NULL_HASH⟩,
   ⟨RawOp.add, 5, make_path "/g/h", NULL_HASH⟩,
   ⟨RawOp.add, 6, make_path "/g/h/d.t", "H2"⟩,
   ⟨RawOp.add, 7, make_path "/g/h/b", NULL_HASH⟩,
   ⟨RawOp.add, 8, make_path "/g/h/b/c.t", "H1"⟩]

/-- C1: for the input run `DEL /f/b/c.t H1`, `DEL /f/b -`, `DEL /f/d.t H2`,
`DEL /f -`, `ADD /g/h -`, `ADD /g/h/d.t H2`, `ADD /g/h/b -`,
`ADD /g/h/b/c.t H1`, ingested in this timestamp order and then passed through
the folder-level reduction, the final event store contains exactly one event:
a folder `Move` with old path `/f` and new path `/g/h`. -/
theorem c1_folder_move_end_to_end :
    (simplify_state (ingest_raw c1_input)).events
      = [Event.e_move FileType.e_folder 5 (make_path "/f") (make_path "/g/h")] := by
  decide

/-- The nested-delete input run of the subtree-collapse property. -/
def c4_input : List RawEvent :=
  [⟨RawOp.del, 1, make_path "/a/b/c.t", "HC"⟩,
   ⟨RawOp.del, 2, make_path "/a/b", NULL_HASH⟩,
   ⟨RawOp.del, 3, make_path "/a/d.t", "HD"⟩,
   ⟨RawOp.del, 4, make_path "/a", NULL_HASH⟩]

/-- C4, counterexample: for the four nested deletes, the final store's single
`Delete {/a}` carries a subtree with THREE entries — the collapse also records
the nested folder itself as `("b", sentinel)` — so the subtree is not exactly
the two-entry mapping `{"b/c.t": hash(c.t), "d.t": hash(d.t)}` the claim
states. -/
theorem c4_subtree_has_folder_entry :
    (simplify_state (ingest_raw c4_input)).events
      = [Event.e_delete FileType.e_folder 4 (make_path "/a") NULL_HASH
          [("b", NULL_HASH), ("b/c.t", "HC"), ("d.t", "HD")]]
    ∧ ([("b", NULL_HASH), ("b/c.t", "HC"), ("d.t", "HD")] : t_tree)
        ≠ [("b/c.t", "HC"), ("d.t", "HD")] := by
  decide

/-- C4, amended: given the four adjacent nested deletes, the final store
contains one `Delete {/a}` whose subtree mapping equals exactly
`{"b": sentinel, "b/c.t": hash(c.t), "d.t": hash(d.t)}` — the two file
entries plus the sentinel entry for the nested folder `b` itself, and no
others. -/
theorem c4_subtree_collapse_amended :
    (simplify_state (ingest_raw c4_input)).events
      = [Event.e_delete FileType.e_folder 4 (make_path "/a") NULL_HASH
          [("b", NULL_HASH), ("b/c.t", "HC"), ("d.t", "HD")]] := by
  decide

/-- A file delete followed by a create with a different path and hash: at the
file level nothing fuses, so both sit adjacently in the store. -/
def c5_input : List RawEvent :=
  [⟨RawOp.del, 1, make_path "/a.t", "h1"⟩,
   ⟨RawOp.add, 2, make_path "/b.t", "h2"⟩]

/-- C5: the claim says a `Delete` whose object kind is file is never rewritten
into a folder `Move`; the code's folder-kind guard in
`simplify_to_folder_move` is an effect-free statement (`cur_it;` without
`return`, with `prev_it` tested twice), so the file delete `/a.t` followed by
the unrelated create `/b.t` (empty built subtree = empty delete subtree) IS
rewritten into a folder `Move {/a.t, /b.t}`, contradicting the function's own
documentation ("Simplifies a folder DEL event"). -/
theorem c5_file_delete_rewritten_to_folder_move :
    (simplify_state (ingest_raw c5_input)).events
      = [Event.e_move FileType.e_folder 2 (make_path "/a.t") (make_path "/b.t")] := by
  decide

/-!  ## Error handling on empty paths  -/

/-- C9, counterexample: at the concrete empty path the two accessors do NOT
both fail hard.  `get_parent` does hit its `assert(!path.empty())` contract
check (modeled as `none`, no result), but `get_name` has no check at all: the
unchecked reverse-begin dereference silently yields a value — the type of the
embedded `get_name` is plain `String` and it returns the unspecified default
here — instead of aborting, refuting the claim that both accessors fail hard
instead of producing a result. -/
theorem c9_get_name_silently_returns :
    get_parent ([] : t_path) = none ∧ get_name ([] : t_path) = "" :=
  ⟨rfl, rfl⟩

/-- C9, amended: requesting the parent of a `Path` with zero segments is
surfaced as a hard failure — `get_parent` asserts and yields no result — but
requesting its name is not checked: `get_name` dereferences the reverse-begin
iterator of the empty list (undefined behavior in the C++) and silently
returns a value (the embedding's unspecified default) rather than failing. -/
theorem c9_empty_path_parent_fails_name_unchecked (p : t_path) (h : p = []) :
    get_parent p = none ∧ get_name p = "" := by
  subst h
  exact ⟨rfl, rfl⟩

/-- Witness for the amended C9 at the concrete empty path. -/
theorem c9_empty_path_parent_fails_name_unchecked_witness :
    ([] : t_path) = [] ∧ (get_parent [] = none ∧ get_name [] = "") :=
  ⟨rfl, c9_empty_path_parent_fails_name_unchecked [] rfl⟩

/-!  ## Move predicates (`t_event_move`)  -/

/-- `t_event_move::is_rename`: true when the names of the two paths differ. -/
def Event.is_rename : Event → Bool
  | .e_move _ _ old_path new_path => decide (get_name old_path ≠ get_name new_path)
  | _ => false

/-- `t_event_move::is_move`: true when the parents of the two paths differ. -/
def Event.is_move : Event → Bool
  | .e_move _ _ old_path new_path => decide (get_parent old_path ≠ get_parent new_path)
  | _ => false

/-!  ## Ingestion lemmas  -/

/-- Inserting an event whose timestamp is at least every stored timestamp
appends it at the end of the store (the stable upper-bound position). -/
theorem insert_event_eq_concat (l : List Event) (ev : Event)
    (h : ∀ e ∈ l, e.timestamp ≤ ev.timestamp) :
    (insert_event l ev).1 = l ++ [ev] := by
  induction l with
  | nil => rfl
  | cons e rest ih =>
    have h1 : ¬ ev.timestamp < e.timestamp := not_lt.mpr (h e (List.mem_cons_self e rest))
    have h2 : (insert_event rest ev).1 = rest ++ [ev] :=
      ih (fun x hx => h x (List.mem_cons_of_mem e hx))
    simp [insert_event, h1, h2]

/-- C2: a file `Delete {p, h}` that is the most recently stored event,
followed by an incoming file `Create` at the same path `p` with the same hash
`h`, fuses into a single `Modify {p, h, h}` (old hash equal to new hash) —
modify fusion is checked before move fusion, so no `Move` is ever produced
for this pair. -/
theorem c2_modify_fusion_priority (es : List Event) (p : t_path) (h : t_hash)
    (sub : t_tree) (ts1 ts : Int) (idx : t_hash_index)
    (hts : ∀ e ∈ es, e.timestamp ≤ ts) :
    (add_to_state ⟨es ++ [Event.e_delete FileType.e_file ts1 p h sub], idx⟩
        (Event.e_new FileType.e_file ts p h)).events
      = es ++ [Event.e_modify FileType.e_file ts p h h] := by
  have hmod : simplify_to_modify_event
      ⟨es ++ [Event.e_delete FileType.e_file ts1 p h sub], idx⟩
      (Event.e_new FileType.e_file ts p h)
      = some ⟨es ++ [Event.e_modify FileType.e_file ts p h h], idx⟩ := by
    simp only [simplify_to_modify_event, List.getLast?_concat]
    simp [Event.file_type, Event.event_type, List.dropLast_concat,
      insert_event_eq_concat es (Event.e_modify FileType.e_file ts p h h) hts]
  simp [add_to_state, Event.file_type, hmod]

/-- Witness for C2 at a concrete instance. -/
theorem c2_modify_fusion_priority_witness :
    (∀ e ∈ ([] : List Event), e.timestamp ≤ 2)
    ∧ (add_to_state ⟨[] ++ [Event.e_delete FileType.e_file 1 ["/", "a.t"] "h" []], []⟩
          (Event.e_new FileType.e_file 2 ["/", "a.t"] "h")).events
        = [] ++ [Event.e_modify FileType.e_file 2 ["/", "a.t"] "h" "h"] :=
  ⟨by simp, c2_modify_fusion_priority [] ["/", "a.t"] "h" [] 1 2 [] (by simp)⟩

/-- C6: a file `Delete {p1, h}` that is the most recently stored event,
followed by an incoming file `Create {p2, h}` with `p1 ≠ p2` and the same
hash, fuses into exactly one `Move {p1, p2}` replacing both; on that move,
`is_rename` is true iff the names differ and `is_move` is true iff the
parents differ. -/
theorem c6_move_fusion (es : List Event) (p1 p2 : t_path) (h : t_hash)
    (sub : t_tree) (ts1 ts : Int) (idx : t_hash_index)
    (hne : p1 ≠ p2)
    (hts : ∀ e ∈ es, e.timestamp ≤ ts) :
    (add_to_state ⟨es ++ [Event.e_delete FileType.e_file ts1 p1 h sub], idx⟩
        (Event.e_new FileType.e_file ts p2 h)).events
      = es ++ [Event.e_move FileType.e_file ts p1 p2]
    ∧ (Event.is_rename (Event.e_move FileType.e_file ts p1 p2) = true
        ↔ get_name p1 ≠ get_name p2)
    ∧ (Event.is_move (Event.e_move FileType.e_file ts p1 p2) = true
        ↔ get_parent p1 ≠ get_parent p2) := by
  refine ⟨?_, by simp [Event.is_rename], by simp [Event.is_move]⟩
  have hmod : simplify_to_modify_event
      ⟨es ++ [Event.e_delete FileType.e_file ts1 p1 h sub], idx⟩
      (Event.e_new FileType.e_file ts p2 h) = none := by
    simp only [simplify_to_modify_event, List.getLast?_concat]
    simp [Event.file_type, Event.event_type, hne]
  have hmov : simplify_to_move_event
      ⟨es ++ [Event.e_delete FileType.e_file ts1 p1 h sub], idx⟩
      (Event.e_new FileType.e_file ts p2 h)
      = some ⟨es ++ [Event.e_move FileType.e_file ts p1 p2], idx⟩ := by
    simp only [simplify_to_move_event, List.getLast?_concat]
    simp [Event.file_type, Event.event_type, List.dropLast_concat,
      insert_event_eq_concat es (Event.e_move FileType.e_file ts p1 p2) hts]
  simp [add_to_state, Event.file_type, hmod, hmov]

/-- Witness for C6 at a concrete instance. -/
theorem c6_move_fusion_witness :
    ((["/", "a.t"] : t_path) ≠ ["/", "b.t"])
    ∧ (∀ e ∈ ([] : List Event), e.timestamp ≤ 2)
    ∧ ((add_to_state ⟨[] ++ [Event.e_delete FileType.e_file 1 ["/", "a.t"] "h" []], []⟩
          (Event.e_new FileType.e_file 2 ["/", "b.t"] "h")).events
        = [] ++ [Event.e_move FileType.e_file 2 ["/", "a.t"] ["/", "b.t"]]
      ∧ (Event.is_rename (Event.e_move FileType.e_file 2 ["/", "a.t"] ["/", "b.t"]) = true
          ↔ get_name ["/", "a.t"] ≠ get_name ["/", "b.t"])
      ∧ (Event.is_move (Event.e_move FileType.e_file 2 ["/", "a.t"] ["/", "b.t"]) = true
          ↔ get_parent ["/", "a.t"] ≠ get_parent ["/", "b.t"])) :=
  ⟨by decide, by simp,
    c6_move_fusion [] ["/", "a.t"] ["/", "b.t"] "h" [] 1 2 [] (by decide) (by simp)⟩

/-- C7: an incoming file `Create {p2, h}` for which neither fusion applies,
while the hash index's equal range for `h` is non-empty with first entry
`(h, p1)`, is replaced by a `Copy {p1, p2}` appended to the store; every
previously stored event (in particular the `Create {p1, h}` that populated
the index) is left unchanged. -/
theorem c7_copy_detection (st : t_algo_state) (p1 p2 : t_path) (h : t_hash) (ts : Int)
    (hmod : simplify_to_modify_event st (Event.e_new FileType.e_file ts p2 h) = none)
    (hmov : simplify_to_move_event st (Event.e_new FileType.e_file ts p2 h) = none)
    (hfind : st.hash_index.find? (fun e => e.1 == h) = some (h, p1))
    (hts : ∀ e ∈ st.events, e.timestamp ≤ ts) :
    (add_to_state st (Event.e_new FileType.e_file ts p2 h)).events
      = st.events ++ [Event.e_copy FileType.e_file ts p1 p2] := by
  have hcop : simplify_to_copy_event st (Event.e_new FileType.e_file ts p2 h)
      = some ⟨st.events ++ [Event.e_copy FileType.e_file ts p1 p2], st.hash_index⟩ := by
    simp only [simplify_to_copy_event, hfind]
    simp [insert_event_eq_concat st.events (Event.e_copy FileType.e_file ts p1 p2) hts]
  simp [add_to_state, Event.file_type, hmod, hmov, hcop]

/-- Witness for C7 at a concrete instance: the index already holds `(h, /s.t)`
from a live file, and an incoming create of `/d.t` with the same hash becomes
a copy. -/
theorem c7_copy_detection_witness :
    (simplify_to_modify_event
        ⟨[Event.e_new FileType.e_file 1 ["/", "s.t"] "h"], [("h", ["/", "s.t"])]⟩
        (Event.e_new FileType.e_file 2 ["/", "d.t"] "h") = none)
    ∧ (simplify_to_move_event
        ⟨[Event.e_new FileType.e_file 1 ["/", "s.t"] "h"], [("h", ["/", "s.t"])]⟩
        (Event.e_new FileType.e_file 2 ["/", "d.t"] "h") = none)
    ∧ (List.find? (fun e => e.1 == "h") [(("h" : t_hash), (["/", "s.t"] : t_path))]
        = some ("h", ["/", "s.t"]))
    ∧ (add_to_state
        ⟨[Event.e_new FileType.e_file 1 ["/", "s.t"] "h"], [("h", ["/", "s.t"])]⟩
        (Event.e_new FileType.e_file 2 ["/", "d.t"] "h")).events
      = [Event.e_new FileType.e_file 1 ["/", "s.t"] "h"]
        ++ [Event.e_copy FileType.e_file 2 ["/", "s.t"] ["/", "d.t"]] :=
  ⟨by decide, by decide, by decide,
    c7_copy_detection
      ⟨[Event.e_new FileType.e_file 1 ["/", "s.t"] "h"], [("h", ["/", "s.t"])]⟩
      ["/", "s.t"] ["/", "d.t"] "h" 2 (by decide) (by decide) (by decide) (by decide)⟩

/-!  ## Folder-pass lemmas  -/

/-- The scan of `find_add_bounds_go` never moves its index backwards. -/
theorem find_add_bounds_go_ge (b : t_path) :
    ∀ (l : List Event) (j : Nat) (acc : t_tree), j ≤ (find_add_bounds_go b l j acc).1 := by
  intro l
  induction l with
  | nil => intro j acc; simp [find_add_bounds_go]
  | cons e rest ih =>
    intro j acc
    cases e with
    | e_new f t p h =>
      simp only [find_add_bounds_go]
      by_cases h1 : p.length ≤ b.length
      · simp [h1]
      · by_cases h2 : p.take b.length = b
        · simp [h1, h2]
          exact le_trans (Nat.le_succ j) (ih (j+1) _)
        · simp [h1, h2]
    | e_delete f t p h s => simp [find_add_bounds_go]
    | e_modify f t p a b9 => simp [find_add_bounds_go]
    | e_move f t a b9 => simp [find_add_bounds_go]
    | e_copy f t a b9 => simp [find_add_bounds_go]

/-- C8: a `Delete` of a folder followed by a run of `Create`s whose built
subtree does not exactly equal the delete's subtree leaves the event store
completely unchanged — `simplify_to_folder_move` returns the store as is with
the iterator still at the current event — and the scan step then advances the
current iterator one past its position, past the `Delete`. -/
theorem c8_nonmatch_leaves_store (es : List Event) (i : Nat)
    (pts : Int) (ppath : t_path) (phash : t_hash) (psub : t_tree)
    (cft : FileType) (cts : Int) (cpath : t_path) (chash : t_hash)
    (hprev : es[i-1]? = some (Event.e_delete FileType.e_folder pts ppath phash psub))
    (hcur : es[i]? = some (Event.e_new cft cts cpath chash))
    (hmismatch : (find_add_bounds es i).2 ≠ psub) :
    simplify_to_folder_move es i = (es, i) ∧ scan_step es i = (es, inc i) := by
  have hge : i + 1 ≤ (find_add_bounds es i).1 := by
    simp only [find_add_bounds, hcur]
    exact find_add_bounds_go_ge cpath (es.drop (i+1)) (i+1) []
  have h1 : simplify_to_folder_move es i = (es, i) := by
    simp only [simplify_to_folder_move, hprev, hcur, Event.event_type]
    have hne : ¬ (find_add_bounds es i).1 = i := by omega
    by_cases hlen : (find_add_bounds es i).2.length = psub.length
    · simp [hne, hlen, hmismatch]
    · simp [hne, hlen]
  have hizero : i ≠ 0 := by
    intro hz
    subst hz
    simp only [show (0:Nat) - 1 = 0 from rfl] at hprev
    rw [hprev] at hcur
    simp at hcur
  obtain ⟨j, hj⟩ := Nat.exists_eq_succ_of_ne_zero hizero
  subst hj
  have hcl : collapse_loop es (j + 1) = (es, j + 1) := by
    have hnone : simplify_folder_delete es (j + 1) = none := by
      simp only [simplify_folder_delete, hprev, hcur, Event.event_type]
      simp
    simp only [collapse_loop, hnone]
  refine ⟨h1, ?_⟩
  simp only [scan_step, hcl]
  simp [h1, inc]

/-- Witness for C8 at a concrete instance: a folder delete whose recorded
subtree has one entry, followed by an unrelated create whose built subtree is
empty. -/
theorem c8_nonmatch_leaves_store_witness :
    (([Event.e_delete FileType.e_folder 1 ["/", "x"] NULL_HASH [("q", "h")],
       Event.e_new FileType.e_file 2 ["/", "y"] "k"] : List Event)[0]?
        = some (Event.e_delete FileType.e_folder 1 ["/", "x"] NULL_HASH [("q", "h")]))
    ∧ (([Event.e_delete FileType.e_folder 1 ["/", "x"] NULL_HASH [("q", "h")],
         Event.e_new FileType.e_file 2 ["/", "y"] "k"] : List Event)[1]?
        = some (Event.e_new FileType.e_file 2 ["/", "y"] "k"))
    ∧ (find_add_bounds
        [Event.e_delete FileType.e_folder 1 ["/", "x"] NULL_HASH [("q", "h")],
         Event.e_new FileType.e_file 2 ["/", "y"] "k"] 1).2 ≠ [("q", "h")]
    ∧ (simplify_to_folder_move
        [Event.e_delete FileType.e_folder 1 ["/", "x"] NULL_HASH [("q", "h")],
         Event.e_new FileType.e_file 2 ["/", "y"] "k"] 1
        = ([Event.e_delete FileType.e_folder 1 ["/", "x"] NULL_HASH [("q", "h")],
            Event.e_new FileType.e_file 2 ["/", "y"] "k"], 1)
      ∧ scan_step
          [Event.e_delete FileType.e_folder 1 ["/", "x"] NULL_HASH [("q", "h")],
           Event.e_new FileType.e_file 2 ["/", "y"] "k"] 1
        = ([Event.e_delete FileType.e_folder 1 ["/", "x"] NULL_HASH [("q", "h")],
            Event.e_new FileType.e_file 2 ["/", "y"] "k"], inc 1)) :=
  ⟨by decide, by decide, by decide,
    c8_nonmatch_leaves_store _ 1 1 ["/", "x"] NULL_HASH [("q", "h")]
      FileType.e_file 2 ["/", "y"] "k" (by decide) (by decide) (by decide)⟩


/-- Positions named by a `some` result of `getElem?` are inside the list. -/
theorem lt_length_of_getElem?_eq_some {α : Type} {l : List α} {n : Nat} {a : α}
    (h : l[n]? = some a) : n < l.length := by
  by_contra hn
  rw [List.getElem?_eq_none (Nat.le_of_not_lt hn)] at h
  exact Option.noConfusion h

/-- A firing collapse removes exactly one event from the store. -/
theorem simplify_folder_delete_length (es es1 : List Event) (i : Nat)
    (h1 : 1 ≤ i) (h : simplify_folder_delete es i = some es1) :
    es1.length + 1 = es.length := by
  unfold simplify_folder_delete at h
  split at h <;> try exact Option.noConfusion h
  rename_i prev_ev cur_ev hp hc
  have hi1 : i - 1 < es.length := lt_length_of_getElem?_eq_some hp
  have hi : i < es.length := lt_length_of_getElem?_eq_some hc
  by_cases hg1 : prev_ev.event_type ≠ EventType.e_delete ∨ cur_ev.event_type ≠ EventType.e_delete
  · rw [if_pos hg1] at h; exact Option.noConfusion h
  rw [if_neg hg1] at h
  by_cases hg2 : cur_ev.file_type ≠ FileType.e_folder
  · rw [if_pos hg2] at h; exact Option.noConfusion h
  rw [if_neg hg2] at h
  split at h <;> try exact Option.noConfusion h
  rename_i pf pt pp ph ps cf ct cp ch cs
  split at h <;> try exact Option.noConfusion h
  rename_i par hgp
  by_cases hcp : cp = par
  case neg => rw [if_neg hcp] at h; exact Option.noConfusion h
  rw [if_pos hcp] at h
  simp only [Option.some_inj] at h
  subst h
  simp only [List.length_append, List.length_cons, List.length_take, List.length_drop]
  omega

/-- `insert_event` grows the store by one and reports a position inside it. -/
theorem insert_event_length (l : List Event) (ev : Event) :
    (insert_event l ev).1.length = l.length + 1 ∧ (insert_event l ev).2 ≤ l.length := by
  induction l with
  | nil => simp [insert_event]
  | cons e rest ih =>
    obtain ⟨ih1, ih2⟩ := ih
    simp only [insert_event]
    by_cases hlt : ev.timestamp < e.timestamp
    · simp [hlt]
    · simp [hlt, ih1]
      omega

/-- The collapse loop never moves the current index forward, and preserves the
distance between the current index and the end of the store (each firing
removes one predecessor and shifts the index down by one). -/
theorem collapse_loop_spec : ∀ (i : Nat) (es : List Event),
    (collapse_loop es i).2 + es.length = i + (collapse_loop es i).1.length
    ∧ (collapse_loop es i).2 ≤ i := by
  intro i
  induction i with
  | zero => intro es; simp [collapse_loop]
  | succ j ih =>
    intro es
    simp only [collapse_loop]
    cases hsfd : simplify_folder_delete es (j + 1) with
    | none => simp
    | some es1 =>
      have hlen : es1.length + 1 = es.length :=
        simplify_folder_delete_length es es1 (j + 1) (Nat.le_add_left 1 j) hsfd
      by_cases hj : j = 0
      · subst hj
        simp
        omega
      · simp only [if_neg hj]
        obtain ⟨ihA, ihB⟩ := ih es1
        refine ⟨by omega, by omega⟩

/-- `simplify_to_folder_move` either leaves the store and the current index
unchanged, or returns the position of the freshly inserted move, which lies
inside the rewritten store. -/
theorem simplify_to_folder_move_cases (es : List Event) (i : Nat) :
    simplify_to_folder_move es i = (es, i)
    ∨ (simplify_to_folder_move es i).2 < (simplify_to_folder_move es i).1.length := by
  unfold simplify_to_folder_move
  split
  rotate_left
  · left; rfl
  rename_i prev_ev cur_ev hp hc
  by_cases hg : prev_ev.event_type ≠ EventType.e_delete ∨ cur_ev.event_type ≠ EventType.e_new
  · rw [if_pos hg]; left; rfl
  rw [if_neg hg]
  split
  rotate_left
  · left; rfl
  rename_i pf pt pp ph ps cf ct cp ch
  dsimp only
  by_cases hb1 : (find_add_bounds es i).1 = i
  · rw [if_pos hb1]; left; rfl
  rw [if_neg hb1]
  by_cases hb2 : (find_add_bounds es i).2.length ≠ ps.length
  · rw [if_pos hb2]; left; rfl
  rw [if_neg hb2]
  by_cases hb3 : (find_add_bounds es i).2 ≠ ps
  · rw [if_pos hb3]; left; rfl
  rw [if_neg hb3]
  right
  obtain ⟨hl, hp2⟩ := insert_event_length (es.take (i-1) ++ es.drop (find_add_bounds es i).1)
    (Event.e_move FileType.e_folder ct pp cp)
  omega

/-- C10: the folder-level pass is iterator-safe exactly on non-empty stores.
`simplify_state` starts its scan at `inc` of the beginning (index `0`) before
comparing against the end (index `length`): on a non-empty store that initial
position is within bounds, and each `scan_step` keeps the current position at
least `1` and at most the end of the (possibly rewritten) store; on an empty
store the very first increment already steps past the end. -/
theorem c10_scan_stays_in_bounds :
    (∀ es : List Event, es ≠ [] → inc 0 ≤ es.length)
    ∧ (∀ (es : List Event) (i : Nat), 1 ≤ i → i < es.length →
        1 ≤ (scan_step es i).2 ∧ (scan_step es i).2 ≤ (scan_step es i).1.length)
    ∧ inc 0 > ([] : List Event).length := by
  refine ⟨?_, ?_, by simp [inc]⟩
  · intro es hne
    have hpos : 0 < es.length := List.length_pos.mpr hne
    simp only [inc]
    omega
  · intro es i h1 h2
    obtain ⟨hA, hB⟩ := collapse_loop_spec i es
    simp only [scan_step]
    by_cases hz : (collapse_loop es i).2 = 0
    · rw [if_pos hz]
      refine ⟨by simp [inc], ?_⟩
      simp only [inc, hz]
      omega
    · rw [if_neg hz]
      dsimp only
      rcases simplify_to_folder_move_cases (collapse_loop es i).1 (collapse_loop es i).2
        with hc1 | hc2
      · rw [hc1]
        refine ⟨by simp [inc], ?_⟩
        simp only [inc]
        omega
      · refine ⟨by simp [inc], ?_⟩
        simp only [inc]
        omega

/-- Witness for C10 at a concrete two-event store and scan position `1`. -/
theorem c10_scan_stays_in_bounds_witness :
    (([Event.e_new FileType.e_folder 1 ["/", "a"] NULL_HASH,
       Event.e_new FileType.e_folder 2 ["/", "b"] NULL_HASH] : List Event) ≠ []
      ∧ inc 0 ≤ ([Event.e_new FileType.e_folder 1 ["/", "a"] NULL_HASH,
          Event.e_new FileType.e_folder 2 ["/", "b"] NULL_HASH] : List Event).length)
    ∧ (1 ≤ (scan_step [Event.e_new FileType.e_folder 1 ["/", "a"] NULL_HASH,
          Event.e_new FileType.e_folder 2 ["/", "b"] NULL_HASH] 1).2
      ∧ (scan_step [Event.e_new FileType.e_folder 1 ["/", "a"] NULL_HASH,
          Event.e_new FileType.e_folder 2 ["/", "b"] NULL_HASH] 1).2
        ≤ (scan_step [Event.e_new FileType.e_folder 1 ["/", "a"] NULL_HASH,
          Event.e_new FileType.e_folder 2 ["/", "b"] NULL_HASH] 1).1.length) :=
  ⟨⟨by decide, c10_scan_stays_in_bounds.1 _ (by decide)⟩,
    c10_scan_stays_in_bounds.2.1 _ 1 (by decide) (by decide)⟩

/-!  ## Hash-index consistency  -/

/-- Spec-side definition, following the spec's words for the hash-index
invariant: `spec_live rs p` is the hash carried by the most recent raw file
`Create` at path `p` in the stream `rs`, unless a raw file `Delete` at `p`
has since arrived; folder events (sentinel hash) do not affect it. -/
def spec_live (rs : List RawEvent) (p : t_path) : Option t_hash :=
  rs.foldl (fun acc r =>
    if r.hash ≠ NULL_HASH ∧ r.path = p then
      match r.op with
      | RawOp.add => some r.hash
      | RawOp.del => none
    else acc) none

/-- Unfolding `spec_live` over one appended raw event. -/
theorem spec_live_append (rs : List RawEvent) (r : RawEvent) (p : t_path) :
    spec_live (rs ++ [r]) p
      = if r.hash ≠ NULL_HASH ∧ r.path = p then
          (match r.op with | RawOp.add => some r.hash | RawOp.del => none)
        else spec_live rs p := by
  simp only [spec_live, List.foldl_append, List.foldl_cons, List.foldl_nil]

/-- Contract of the input feed for one raw event given the events already
seen: a file `Create` targets a path that is not currently live, and a file
`Delete` targets a live path and carries that path's current hash (a `Delete`
with no matching live entry is a programming-contract breach).  Folder events
are unconstrained. -/
def valid_cond (past : List RawEvent) (r : RawEvent) : Bool :=
  if r.hash = NULL_HASH then true
  else
    match r.op with
    | RawOp.add => decide (spec_live past r.path = none)
    | RawOp.del => decide (spec_live past r.path = some r.hash)

/-- `valid_from past rest`: every event of `rest` satisfies the input-feed
contract relative to the events before it. -/
def valid_from : List RawEvent → List RawEvent → Bool
  | _, [] => true
  | past, r :: rest => valid_cond past r && valid_from (past ++ [r]) rest

/-- A primitive stream that satisfies the input-feed contract from the
beginning. -/
def valid_stream (rs : List RawEvent) : Bool :=
  valid_from [] rs

/-- Number of occurrences of the entry `(h, p)` in the hash index. -/
def pair_count (idx : t_hash_index) (h : t_hash) (p : t_path) : Nat :=
  idx.countP (fun e => decide (e.1 = h ∧ e.2 = p))

/-- The set (as a list) of paths the hash index currently maps to `h`:
the values of the index's equal range for `h`. -/
def index_paths (idx : t_hash_index) (h : t_hash) : List t_path :=
  (idx.filter (fun e => decide (e.1 = h))).map (fun e => e.2)

/-- `pair_count` on the empty index. -/
theorem pair_count_nil (h : t_hash) (p : t_path) : pair_count [] h p = 0 := rfl

/-- `pair_count` on a cons cell. -/
theorem pair_count_cons (h0 : t_hash) (p0 : t_path) (rest : t_hash_index)
    (h : t_hash) (p : t_path) :
    pair_count ((h0, p0) :: rest) h p
      = pair_count rest h p + (if h0 = h ∧ p0 = p then 1 else 0) := by
  simp only [pair_count, List.countP_cons]
  split_ifs with hc <;> simp_all

/-- Inserting an entry raises its own pair count by one and leaves every
other pair count unchanged, wherever the sorted insertion places it. -/
theorem pair_count_index_insert (idx : t_hash_index) (hh : t_hash) (pp : t_path)
    (h : t_hash) (p : t_path) :
    pair_count (index_insert idx hh pp) h p
      = pair_count idx h p + (if hh = h ∧ pp = p then 1 else 0) := by
  induction idx with
  | nil => simp [index_insert, pair_count_cons, pair_count_nil]
  | cons e rest ih =>
    obtain ⟨h0, p0⟩ := e
    simp only [index_insert]
    by_cases hlt : str_lt hh h0
    · simp only [hlt, if_true, pair_count_cons]
    · simp only [hlt, Bool.false_eq_true, if_false, pair_count_cons, ih]
      omega

/-- Removing an entry lowers its own pair count by one. -/
theorem pair_count_remove_self (idx : t_hash_index) (h : t_hash) (p : t_path) :
    pair_count (remove_from_index idx h p) h p = pair_count idx h p - 1 := by
  induction idx with
  | nil => simp [remove_from_index, pair_count_nil]
  | cons e rest ih =>
    obtain ⟨h0, p0⟩ := e
    simp only [remove_from_index]
    by_cases hm : h0 = h ∧ p0 = p
    · rw [if_pos hm]
      simp only [pair_count_cons, if_pos hm]
      omega
    · rw [if_neg hm]
      simp only [pair_count_cons, if_neg hm, ih]
      omega

/-- Removing an entry leaves every other pair count unchanged. -/
theorem pair_count_remove_other (idx : t_hash_index) (h : t_hash) (p : t_path)
    (h9 : t_hash) (p9 : t_path) (hne : ¬ (h = h9 ∧ p = p9)) :
    pair_count (remove_from_index idx h p) h9 p9 = pair_count idx h9 p9 := by
  induction idx with
  | nil => simp [remove_from_index]
  | cons e rest ih =>
    obtain ⟨h0, p0⟩ := e
    simp only [remove_from_index]
    by_cases hm : h0 = h ∧ p0 = p
    · have hne2 : ¬ (h0 = h9 ∧ p0 = p9) := by
        obtain ⟨e1, e2⟩ := hm
        subst e1; subst e2
        exact hne
      rw [if_pos hm]
      simp only [pair_count_cons, if_neg hne2]
      omega
    · rw [if_neg hm]
      simp only [pair_count_cons, ih]

/-- A path is among the index's paths for `h` iff the pair `(h, p)` occurs in
the index. -/
theorem mem_index_paths_iff (idx : t_hash_index) (h : t_hash) (p : t_path) :
    p ∈ index_paths idx h ↔ 0 < pair_count idx h p := by
  simp only [index_paths, pair_count, List.mem_map, List.mem_filter, List.countP_pos_iff,
    decide_eq_true_eq]
  constructor
  · rintro ⟨e, ⟨he, h1⟩, h2⟩
    exact ⟨e, he, h1, h2⟩
  · rintro ⟨e, he, h1, h2⟩
    exact ⟨e, ⟨he, h1⟩, h2⟩

/-- Modify fusion rewrites only the event store, never the hash index. -/
theorem simplify_to_modify_event_hash_index (st : t_algo_state) (ev : Event)
    (s : t_algo_state) (h : simplify_to_modify_event st ev = some s) :
    s.hash_index = st.hash_index := by
  unfold simplify_to_modify_event at h
  split at h <;> try exact Option.noConfusion h
  rename_i prev_ev hlast
  by_cases hg : prev_ev.file_type = FileType.e_file ∧ ev.event_type = EventType.e_new
  case neg => rw [if_neg hg] at h; exact Option.noConfusion h
  rw [if_pos hg] at h
  split at h <;> try exact Option.noConfusion h
  rename_i pf pt pp ph ps nf nt np nh
  by_cases hpp : pp = np
  case neg => rw [if_neg hpp] at h; exact Option.noConfusion h
  rw [if_pos hpp] at h
  simp only [Option.some_inj] at h
  subst h
  rfl

/-- Move fusion rewrites only the event store, never the hash index. -/
theorem simplify_to_move_event_hash_index (st : t_algo_state) (ev : Event)
    (s : t_algo_state) (h : simplify_to_move_event st ev = some s) :
    s.hash_index = st.hash_index := by
  unfold simplify_to_move_event at h
  split at h <;> try exact Option.noConfusion h
  rename_i prev_ev hlast
  by_cases hg : prev_ev.file_type = FileType.e_file ∧ ev.event_type = EventType.e_new
  case neg => rw [if_neg hg] at h; exact Option.noConfusion h
  rw [if_pos hg] at h
  split at h <;> try exact Option.noConfusion h
  rename_i pf pt pp ph ps nf nt np nh
  by_cases hh : ph = nh
  case neg => rw [if_neg hh] at h; exact Option.noConfusion h
  rw [if_pos hh] at h
  simp only [Option.some_inj] at h
  subst h
  rfl

/-- Copy detection rewrites only the event store, never the hash index. -/
theorem simplify_to_copy_event_hash_index (st : t_algo_state) (ev : Event)
    (s : t_algo_state) (h : simplify_to_copy_event st ev = some s) :
    s.hash_index = st.hash_index := by
  unfold simplify_to_copy_event at h
  split at h <;> try exact Option.noConfusion h
  split at h <;> try exact Option.noConfusion h
  simp only [Option.some_inj] at h
  subst h
  rfl

/-- The hash index is updated from the raw incoming event on every ingestion,
regardless of which fusion/copy/verbatim branch fired. -/
theorem add_to_state_hash_index (st : t_algo_state) (ev : Event) :
    (add_to_state st ev).hash_index = update_index st.hash_index ev := by
  unfold add_to_state
  by_cases hf : ev.file_type = FileType.e_folder
  · rw [if_pos hf]
    have hnf : ¬ ev.file_type = FileType.e_file := by rw [hf]; simp
    simp [update_index, hnf]
  · rw [if_neg hf]
    cases hm : simplify_to_modify_event st ev with
    | some s =>
      simp only [hm]
      rw [simplify_to_modify_event_hash_index st ev s hm]
    | none =>
      simp only [hm]
      cases hv : simplify_to_move_event st ev with
      | some s =>
        simp only [hv]
        rw [simplify_to_move_event_hash_index st ev s hv]
      | none =>
        simp only [hv]
        cases hc : simplify_to_copy_event st ev with
        | some s =>
          simp only [hc]
          rw [simplify_to_copy_event_hash_index st ev s hc]
        | none => simp only [hc]

/-- The hash index of a fully ingested stream is the fold of the raw index
updates alone. -/
theorem foldl_add_hash_index (rs : List RawEvent) : ∀ st : t_algo_state,
    (rs.foldl (fun s r => add_to_state s (raw_to_event r)) st).hash_index
      = rs.foldl (fun i r => update_index i (raw_to_event r)) st.hash_index := by
  induction rs with
  | nil => intro st; rfl
  | cons r rest ih =>
    intro st
    simp only [List.foldl_cons]
    rw [ih, add_to_state_hash_index]

/-- One contract-respecting raw event preserves the index invariant: each
pair `(h, p)` occurs exactly once when `p` is live with hash `h` and never
otherwise. -/
theorem index_step_invariant (past : List RawEvent) (r : RawEvent) (idx : t_hash_index)
    (hinv : ∀ h p, pair_count idx h p = if spec_live past p = some h then 1 else 0)
    (hvc : valid_cond past r = true) :
    ∀ (h : t_hash) (p : t_path),
      pair_count (update_index idx (raw_to_event r)) h p
        = if spec_live (past ++ [r]) p = some h then 1 else 0 := by
  intro h p
  by_cases hfolder : r.hash = NULL_HASH
  · have hft : (raw_to_event r).file_type = FileType.e_folder := by
      cases hop : r.op <;> simp [raw_to_event, raw_file_type, hfolder, Event.file_type, hop]
    have hnf : ¬ (raw_to_event r).file_type = FileType.e_file := by rw [hft]; simp
    have hupd : update_index idx (raw_to_event r) = idx := by
      simp [update_index, hnf]
    have hcond : ¬ (r.hash ≠ NULL_HASH ∧ r.path = p) := by
      intro hcon
      exact hcon.1 hfolder
    rw [hupd, spec_live_append, if_neg hcond]
    exact hinv h p
  · cases hop : r.op with
    | add =>
      have hvadd : spec_live past r.path = none := by
        simp [valid_cond, hfolder, hop] at hvc
        exact hvc
      have hre : raw_to_event r = Event.e_new FileType.e_file r.ts r.path r.hash := by
        simp [raw_to_event, raw_file_type, hfolder, hop]
      have hupd : update_index idx (Event.e_new FileType.e_file r.ts r.path r.hash)
          = index_insert idx r.hash r.path := by
        simp [update_index, Event.file_type]
      rw [hre, hupd, pair_count_index_insert, spec_live_append]
      by_cases hpp : r.path = p
      · subst hpp
        have hcond : (r.hash ≠ NULL_HASH ∧ r.path = r.path) := ⟨hfolder, rfl⟩
        rw [if_pos hcond]
        simp only [hop]
        rw [hinv h r.path, hvadd]
        by_cases hh : r.hash = h
        · subst hh
          simp
        · simp [hh]
      · have hc1 : ¬ (r.hash ≠ NULL_HASH ∧ r.path = p) := fun hcon => hpp hcon.2
        have hc2 : ¬ (r.hash = h ∧ r.path = p) := fun hcon => hpp hcon.2
        rw [if_neg hc1, if_neg hc2, hinv h p]
        simp
    | del =>
      have hvdel : spec_live past r.path = some r.hash := by
        simp [valid_cond, hfolder, hop] at hvc
        exact hvc
      have hre : raw_to_event r = Event.e_delete FileType.e_file r.ts r.path r.hash [] := by
        simp [raw_to_event, raw_file_type, hfolder, hop]
      have hupd : update_index idx (Event.e_delete FileType.e_file r.ts r.path r.hash [])
          = remove_from_index idx r.hash r.path := by
        simp [update_index, Event.file_type]
      rw [hre, hupd, spec_live_append]
      by_cases hpp : r.path = p
      · subst hpp
        have hcond : (r.hash ≠ NULL_HASH ∧ r.path = r.path) := ⟨hfolder, rfl⟩
        rw [if_pos hcond]
        simp only [hop]
        by_cases hh : r.hash = h
        · subst hh
          rw [pair_count_remove_self, hinv r.hash r.path, hvdel]
          simp
        · rw [pair_count_remove_other idx r.hash r.path h r.path
            (fun hcon => hh hcon.1)]
          rw [hinv h r.path, hvdel]
          have hns : ¬ ((some r.hash : Option t_hash) = some h) := by
            intro hcon
            exact hh (Option.some_inj.mp hcon)
          rw [if_neg hns]
          simp
      · have hc1 : ¬ (r.hash ≠ NULL_HASH ∧ r.path = p) := fun hcon => hpp hcon.2
        rw [if_neg hc1]
        rw [pair_count_remove_other idx r.hash r.path h p (fun hcon => hpp hcon.2)]
        exact hinv h p

/-- The index invariant is preserved along any contract-respecting suffix of
the stream. -/
theorem index_invariant_from (rest : List RawEvent) :
    ∀ (past : List RawEvent) (idx : t_hash_index),
      (∀ h p, pair_count idx h p = if spec_live past p = some h then 1 else 0) →
      valid_from past rest = true →
      ∀ (h : t_hash) (p : t_path),
        pair_count (rest.foldl (fun i r => update_index i (raw_to_event r)) idx) h p
          = if spec_live (past ++ rest) p = some h then 1 else 0 := by
  induction rest with
  | nil =>
    intro past idx hinv _ h p
    simpa using hinv h p
  | cons r rest9 ih =>
    intro past idx hinv hv h p
    rw [valid_from, Bool.and_eq_true] at hv
    obtain ⟨hv1, hv2⟩ := hv
    have hstep := index_step_invariant past r idx hinv hv1
    have hres := ih (past ++ [r]) (update_index idx (raw_to_event r)) hstep hv2 h p
    simpa [List.append_assoc] using hres

/-- C3: after the file-level reducer processes any prefix of the primitive
event stream (any stream satisfying the input-feed contract), for every hash
`h` the hash index's set of paths mapped to `h` equals exactly the set of
paths whose most recent raw `Create` carried `h` and for which no raw
`Delete` has since arrived; moreover the index is updated from the raw
incoming event on every ingestion, regardless of which branch fired. -/
theorem c3_hash_index_consistency :
    (∀ (st : t_algo_state) (ev : Event),
        (add_to_state st ev).hash_index = update_index st.hash_index ev)
    ∧ ∀ rs : List RawEvent, valid_stream rs = true →
        ∀ (h : t_hash) (p : t_path),
          (p ∈ index_paths (ingest_raw rs).hash_index h ↔ spec_live rs p = some h) := by
  refine ⟨add_to_state_hash_index, ?_⟩
  intro rs hv h p
  have hv9 : valid_from [] rs = true := hv
  have hidx : (ingest_raw rs).hash_index
      = rs.foldl (fun i r => update_index i (raw_to_event r)) [] := by
    unfold ingest_raw
    rw [foldl_add_hash_index]
  have hbase : ∀ (h9 : t_hash) (p9 : t_path),
      pair_count [] h9 p9 = if spec_live [] p9 = some h9 then 1 else 0 := by
    intro h9 p9
    simp [pair_count_nil, spec_live]
  have hcount := index_invariant_from rs [] [] hbase hv9 h p
  rw [List.nil_append] at hcount
  rw [mem_index_paths_iff, hidx, hcount]
  by_cases hsl : spec_live rs p = some h <;> simp [hsl]

/-- C3: after the file-level reducer processes any prefix of the primitive
event stream (any stream satisfying the input-feed contract), for every hash
`h` the hash index's set of paths mapped to `h` equals exactly the set of
paths whose most recent raw `Create` carried `h` and for which no raw
`Delete` has since arrived; moreover the index is updated from the raw
incoming event on every ingestion, regardless of which branch fired. -/
theorem c3_hash_index_consistency_witness :
    valid_stream [⟨RawOp.add, 1, ["/", "a.t"], "h"⟩, ⟨RawOp.add, 2, ["/", "b.t"], "k"⟩,
        ⟨RawOp.del, 3, ["/", "a.t"], "h"⟩] = true
    ∧ ((["/", "b.t"] : t_path) ∈ index_paths
          (ingest_raw [⟨RawOp.add, 1, ["/", "a.t"], "h"⟩, ⟨RawOp.add, 2, ["/", "b.t"], "k"⟩,
            ⟨RawOp.del, 3, ["/", "a.t"], "h"⟩]).hash_index "k"
        ↔ spec_live [⟨RawOp.add, 1, ["/", "a.t"], "h"⟩, ⟨RawOp.add, 2, ["/", "b.t"], "k"⟩,
            ⟨RawOp.del, 3, ["/", "a.t"], "h"⟩] ["/", "b.t"] = some "k") :=
  ⟨by decide, c3_hash_index_consistency.2 _ (by decide) "k" ["/", "b.t"]⟩
